import Mathlib

/-!
Shallow embedding of the workout-state derivation and progress-parsing core of
`src/workout_app.py` (functions `load_and_process_history`, `parse_actual`,
`calculate_overall_completion`, `find_next_workout_and_exercises`).

A snapshot set (the Python `all_sheets_data` dict) is modelled as an ordered
association list of sheet title to grid, a grid being a list of rows of string
cells (Python `get_all_values` output).  Python code that can raise an uncaught
exception (out-of-range indexing `row[i]` / `s[8]`, `int` of a non-digit
character) is modelled in the `Option` monad: `none` is an uncaught exception
escaping the function, `some` is normal return.  Python string truthiness is
emptiness of the string; `str.isdigit`, `str.lower`, `in`, `split`, `replace`
are modelled character-list-wise below.  The float percentage is modelled as an
exact rational.
-/

namespace WorkoutApp

abbrev Grid := List (List String)

abbrev Sheets := List (String × Grid)

/-- Python `needle in hay` on strings: contiguous substring occurrence. -/
def hasSub : List Char → List Char → Bool
  | hay, needle =>
    needle.isPrefixOf hay ||
      match hay with
      | [] => false
      | _ :: t => hasSub t needle

/-- Python `str.lower` applied characterwise. -/
def lowerChars (cs : List Char) : List Char := cs.map Char.toLower

/-- Python `s.isdigit()` for a token: non-empty and all digit characters. -/
def tokenIsDigit (cs : List Char) : Bool := !cs.isEmpty && cs.all Char.isDigit

/-- Python `int` on a string of decimal digits. -/
def natOfDigits (cs : List Char) : Nat :=
  cs.foldl (fun a c => a * 10 + (c.toNat - 48)) 0

/-- Python `s.replace(",", " ")` characterwise. -/
def replComma (cs : List Char) : List Char :=
  cs.map (fun c => if c = ',' then ' ' else c)

/-- Python `s.split()` (no argument): split on whitespace runs, no empty
tokens.  The accumulator holds the current token reversed. -/
def wsTokens : List Char → List Char → List (List Char)
  | [], acc => if acc.isEmpty then [] else [acc.reverse]
  | c :: rest, acc =>
    if c.isWhitespace then
      if acc.isEmpty then wsTokens rest [] else acc.reverse :: wsTokens rest []
    else wsTokens rest (c :: acc)

/-- `parse_actual` from `load_and_process_history` (src/workout_app.py lines
71-78).  `none` models the `except` branch returning Python `None`: it is
reached exactly when the `sec` branch calls `int` on the empty string, i.e.
when no digit character occurs before the first `-`.  In the non-`sec` branch
`int(s.strip())` cannot fail on a token that passed `s.isdigit()`, and
`sum([])` is `0`, so that branch always returns a value. -/
def parse_actual (value_str : String) : Option Nat :=
  let cs := value_str.data
  if hasSub (lowerChars cs) "sec".data then
    let digits := (cs.takeWhile (fun c => c ≠ '-')).filter Char.isDigit
    if digits.isEmpty then none else some (natOfDigits digits)
  else
    some ((((wsTokens (replComma cs) []).filter tokenIsDigit).map natOfDigits).sum)

/-- A header marks a workout-actual column iff it contains both substrings
`"Workout"` and `"Actual"` (case-sensitive). -/
def isWorkoutActual (h : String) : Bool :=
  hasSub h.data "Workout".data && hasSub h.data "Actual".data

/-- `workout_cols` / `workout_col_indices`: the workout-actual columns of a
header row, as (0-based index, header) pairs in header order. -/
def workoutColsOf (headers : List String) : List (Nat × String) :=
  headers.enum.filter (fun p => isWorkoutActual p.2)

/-- The shared exercise-block length: leading rows whose first cell is a
non-empty string; `row and row[0]` is falsy for an empty row list as well as
for an empty name cell, so no indexing error can occur here. -/
def countLeading : Grid → Nat
  | [] => 0
  | row :: rest => if (row.headD "").isEmpty then 0 else countLeading rest + 1

/-- Python `int(day_title[8])`: the character at offset 8 of a header,
converted to its digit value; `none` models the IndexError (header shorter
than 9 characters) or ValueError (non-digit character). -/
def digitOfHeader (h : String) : Option Nat :=
  match h.data.get? 8 with
  | none => none
  | some c => if c.isDigit then some (c.toNat - 48) else none

/-- One history record, as appended to `history_records`
(src/workout_app.py lines 57-63). -/
structure HistRecord where
  sheet : String
  day : String
  exercise : String
  actualRaw : String
  workoutOrder : Nat
deriving Repr, DecidableEq

/-- Inner column loop of the history scan (lines 54-63) for one exercise row:
for each workout-actual column, read the cell (IndexError propagates); if it
is non-empty, compute the ordinal (ValueError/IndexError from
`int(day_title[8])` propagates) and emit a record. -/
def processRowCols (sheetTitle : String) (counter : Nat) (name : String)
    (row : List String) : List (Nat × String) → Option (List HistRecord)
  | [] => some []
  | (ci, dt) :: cs =>
    match row.get? ci with
    | none => none
    | some actual =>
      if actual.isEmpty then processRowCols sheetTitle counter name row cs
      else
        match digitOfHeader dt with
        | none => none
        | some d =>
          match processRowCols sheetTitle counter name row cs with
          | none => none
          | some recs =>
            some (⟨sheetTitle, dt, name, actual, counter + d⟩ :: recs)

/-- Row loop of the history scan (lines 49-63): `row[0]` raises on an empty
row; a row with an empty name is skipped (`continue`), not a block terminator.
-/
def processRows (sheetTitle : String) (counter : Nat)
    (cols : List (Nat × String)) : Grid → Option (List HistRecord)
  | [] => some []
  | row :: rest =>
    match row.get? 0 with
    | none => none
    | some name =>
      if name.isEmpty then processRows sheetTitle counter cols rest
      else
        match processRowCols sheetTitle counter name row cols,
              processRows sheetTitle counter cols rest with
        | some a, some b => some (a ++ b)
        | _, _ => none

/-- Sheet loop of `load_and_process_history` (lines 34-64), threading the
running `workout_counter`. -/
def extractHistory : Sheets → Nat → Option (List HistRecord)
  | [], _ => some []
  | (title, data) :: rest, counter =>
    if data.length < 3 then extractHistory rest counter
    else
      let cols := workoutColsOf (data.getD 1 [])
      if cols.isEmpty then extractHistory rest counter
      else
        match processRows title counter cols (data.drop 2),
              extractHistory rest (counter + cols.length) with
        | some a, some b => some (a ++ b)
        | _, _ => none

/-- `load_and_process_history`, restricted to the record extraction: the
returned list holds the records in emission order (the subsequent DataFrame
construction, `parse_actual` application and label mangling cannot raise, and
`sort_values` only permutes the records by `workoutOrder`, so the ordinal
facts below are stated on this list).  `none` models an uncaught exception. -/
def load_and_process_history (sheets : Sheets) : Option (List HistRecord) :=
  extractHistory sheets 0

/-- Inner column loop of the completion scan (line 121-123) on one row:
`exercise_rows[i][col_idx]` raises when the row is shorter than the column
index. -/
def rowFilled (row : List String) : List Nat → Option Nat
  | [] => some 0
  | c :: cs =>
    match row.get? c with
    | none => none
    | some v =>
      match rowFilled row cs with
      | none => none
      | some m => some ((if v.isEmpty then 0 else 1) + m)

/-- Outer filled-slot loop (lines 120-123): `for i in range(n)` over the first
`n` exercise rows. -/
def filledInRows (cols : List Nat) : Nat → Grid → Option Nat
  | 0, _ => some 0
  | _ + 1, [] => none
  | n + 1, row :: rest =>
    match rowFilled row cols, filledInRows cols n rest with
    | some a, some b => some (a + b)
    | _, _ => none

/-- Sheet loop of `calculate_overall_completion` (lines 93-123), returning the
accumulated (total_slots, filled_slots). -/
def calc_completion_aux : Sheets → Option (Nat × Nat)
  | [] => some (0, 0)
  | (_, data) :: rest =>
    if data.length < 3 then calc_completion_aux rest
    else
      let cols := (workoutColsOf (data.getD 1 [])).map Prod.fst
      if cols.isEmpty then calc_completion_aux rest
      else
        let rows := data.drop 2
        let n := countLeading rows
        if n = 0 then calc_completion_aux rest
        else
          match filledInRows cols n rows, calc_completion_aux rest with
          | some f, some (t0, f0) => some (n * cols.length + t0, f + f0)
          | _, _ => none

/-- `calculate_overall_completion` (lines 86-129).  The float percentage is
modelled as the exact rational `filled / total * 100`. -/
def calculate_overall_completion (sheets : Sheets) : Option (Nat × Nat × ℚ) :=
  match calc_completion_aux sheets with
  | none => none
  | some (t, f) =>
    if t = 0 then some (0, 0, 0) else some (t, f, (f : ℚ) / (t : ℚ) * 100)

/-- One entry of `exercises_to_do` (lines 250-257). -/
structure Exercise where
  name : String
  sets_goal : String
  reps_goal : String
  rest : String
  gspread_row : Nat
  gspread_col : Nat
deriving Repr, DecidableEq

/-- To-do assembly loop (lines 245-258) for a chosen column `c`: stop at the
first blank-name row; for a row whose cell in column `c` is empty, read the
goal cells (IndexError on a short row propagates) and emit an entry with the
1-based target coordinates.  `start` is the current 0-based row offset. -/
def buildTodos (c : Nat) : Nat → Grid → Option (List Exercise)
  | _, [] => some []
  | start, row :: rest =>
    if (row.headD "").isEmpty then some []
    else
      match row.get? c with
      | none => none
      | some v =>
        if v.isEmpty then
          match row.get? 1, row.get? 2, row.get? 3, buildTodos c (start + 1) rest with
          | some sg, some rg, some rs, some todos =>
            some (⟨row.headD "", sg, rg, rs, start + 3, c + 1⟩ :: todos)
          | _, _, _, _ => none
        else buildTodos c (start + 1) rest

/-- Column loop of the schedule resolver (lines 242-261): the first
workout-actual column whose cell in the last block row is empty is tried; a
computed empty to-do list would fall through to later columns (line 260), a
non-empty one is returned with the sheet title and the column header. -/
def pickColumn (title : String) (rows : Grid) (headers : List String)
    (lastRow : List String) : List Nat → Option (Option (String × List Exercise × String))
  | [] => some none
  | c :: cs =>
    match lastRow.get? c with
    | none => none
    | some v =>
      if v.isEmpty then
        match buildTodos c 0 rows with
        | none => none
        | some todos =>
          if todos.isEmpty then pickColumn title rows headers lastRow cs
          else some (some (title, todos, headers.getD c ""))
      else pickColumn title rows headers lastRow cs

/-- Sheet loop of `find_next_workout_and_exercises` (lines 217-263).  The
inner `some` is a produced result, `some none` means the loop fell through to
`return None, [], None`, outer `none` is an uncaught exception. -/
def findNextAux : Sheets → Option (Option (String × List Exercise × String))
  | [] => some none
  | (title, data) :: rest =>
    if data.length < 3 then findNextAux rest
    else
      let cols := (workoutColsOf (data.getD 1 [])).map Prod.fst
      if cols.isEmpty then findNextAux rest
      else
        let rows := data.drop 2
        let n := countLeading rows
        if n = 0 then findNextAux rest
        else
          match pickColumn title rows (data.getD 1 []) (rows.getD (n - 1) []) cols with
          | none => none
          | some (some r) => some (some r)
          | some none => findNextAux rest

/-- `find_next_workout_and_exercises` (lines 213-263): the Python triple
`(sheet_title or None, exercises, day_title or None)`. -/
def find_next_workout_and_exercises (sheets : Sheets) :
    Option (Option String × List Exercise × Option String) :=
  match findNextAux sheets with
  | none => none
  | some (some (t, ex, d)) => some (some t, ex, some d)
  | some none => some (none, [], none)

/-- The workout-actual columns a sheet contributes to the running counter:
empty when the sheet is skipped for having fewer than 3 rows, otherwise the
workout-actual columns of its header row. -/
def colsOfData (data : Grid) : List (Nat × String) :=
  if data.length < 3 then [] else workoutColsOf (data.getD 1 [])

/-- Value of `workout_counter` when sheet number `s` (0-based) is processed:
the cumulative count of workout-actual columns of all prior sheets. -/
def counterBefore (sheets : Sheets) (s : Nat) : Nat :=
  ((sheets.take s).map (fun p => (colsOfData p.2).length)).sum

/-- A grid is rectangular when all rows have one common length; this is what
the spreadsheet client guarantees (`get_all_values` pads every row), and it is
the sense in which a snapshot is a 2-D grid of strings. -/
def rectangular (data : Grid) : Bool :=
  data.all (fun row => row.length == (data.headD []).length)

/-- Every sheet of the snapshot set is a rectangular grid. -/
def rectangularSheets (sheets : Sheets) : Bool :=
  sheets.all (fun p => rectangular p.2)

/-- Every workout-actual column header of every contributing sheet carries a
digit character at offset 8 (in particular is at least 9 characters long). -/
def wellFormedHeaders (sheets : Sheets) : Bool :=
  sheets.all (fun p => (colsOfData p.2).all (fun pr => (digitOfHeader pr.2).isSome))

/-- The intended header numbering: in every sheet the workout-actual columns,
taken in header order, carry the digits 1, 2, …, k at offset 8 (headers of the
form `Workout 1 (Actual)`, `Workout 2 (Actual)`, …). -/
def wellNumbered (sheets : Sheets) : Bool :=
  sheets.all (fun p =>
    (colsOfData p.2).enum.all (fun jc => digitOfHeader jc.2.2 == some (jc.1 + 1)))

/-- C1, counterexample: the claim states `parse_actual("Done")` is absent and
that a non-`sec` string with no digit tokens yields no metric; the code
evaluates `sum([])`, which is `0`, so `parse_actual "Done"` is the present
value `0`, not absent. -/
theorem c1_parse_actual_done_counterexample :
    parse_actual "Done" = some 0 ∧ parse_actual "Done" ≠ none := by
  decide

/-- C1, amended: `parse_actual` follows the spec's parsing rules except in the
no-digit-token case of the non-`sec` branch, where the result is the present
value `0`; the result is absent exactly when the string contains `sec`
(case-insensitively) and no digit character occurs before the first `-`.  In
particular `parse_actual "10, 9, 8" = 27`, `parse_actual "45-60 sec" = 45`,
and `parse_actual "Done" = 0`. -/
theorem c1_parse_actual_amended :
    parse_actual "10, 9, 8" = some 27 ∧
    parse_actual "45-60 sec" = some 45 ∧
    parse_actual "Done" = some 0 ∧
    ∀ s : String, parse_actual s = none ↔
      (hasSub (lowerChars s.data) "sec".data = true ∧
        (s.data.takeWhile (fun c => c ≠ '-')).filter Char.isDigit = []) := by
  refine ⟨by decide, by decide, by decide, fun s => ?_⟩
  unfold parse_actual
  by_cases h : hasSub (lowerChars s.data) "sec".data
  · simp only [h, if_true, true_and]
    by_cases hd : ((s.data.takeWhile (fun c => c ≠ '-')).filter Char.isDigit).isEmpty
    · simp [hd, List.isEmpty_iff.mp hd]
    · rw [if_neg hd]
      constructor
      · intro hcontra; exact Option.noConfusion hcontra
      · intro hnil; exact absurd (List.isEmpty_iff.mpr hnil) hd
  · simp [h]

/-- C2, counterexample: the claim states the history scan never raises and a
sheet whose workout-actual header has a non-digit character at offset 8 is
skipped with other sheets' records intact.  On the snapshot below the second
sheet's header `WorkoutXActual` has `'A'` at offset 8, `int` raises, and the
whole extraction aborts (`none`), losing the first sheet's record — which the
first conjunct shows would exist on its own. -/
theorem c2_history_scan_counterexample :
    load_and_process_history
        [("G", [["t", ""], ["Name", "Workout 1 (Actual)"], ["A", "x"]])] =
      some [⟨"G", "Workout 1 (Actual)", "A", "x", 1⟩] ∧
    load_and_process_history
        [("G", [["t", ""], ["Name", "Workout 1 (Actual)"], ["A", "x"]]),
         ("B", [["t"], ["WorkoutXActual"], ["B"]])] = none := by
  decide

/-- C4: on the snapshot below the sheet has exercise row `A`, then a
blank-name row, then row `B`.  The History Extractor emits a record for the
post-gap row `B` (second conjunct's record list), while the Completion
Calculator stops its slot count at the blank-name row: only 1 slot in total,
so row `B` contributes no slot. -/
theorem c4_history_vs_completion_gap_row :
    (∃ r ∈ (load_and_process_history
        [("M", [["x", "y"], ["Name", "Workout 1 (Actual)"],
                ["A", "x"], ["", ""], ["B", "y"]])]).getD [],
      r.exercise = "B") ∧
    calculate_overall_completion
        [("M", [["x", "y"], ["Name", "Workout 1 (Actual)"],
                ["A", "x"], ["", ""], ["B", "y"]])] = some (1, 1, 100) := by
  constructor
  · exact ⟨⟨"M", "Workout 1 (Actual)", "B", "y", 1⟩, by decide, rfl⟩
  · have h1 : calc_completion_aux
        [("M", [["x", "y"], ["Name", "Workout 1 (Actual)"],
                ["A", "x"], ["", ""], ["B", "y"]])] = some (1, 1) := by decide
    unfold calculate_overall_completion
    rw [h1]
    norm_num

/-- C6, counterexample: the claim states ordinals strictly increase across a
sheet's workout-actual columns in header order, for every snapshot set.  The
sheet below has two workout-actual columns, `Workout 1 (Actual)` and
`Workout 1x(Actual)`, both carrying the digit `1` at offset 8; its single
exercise row yields one record per column, in header order, with the equal
ordinals `[1, 1]` — not strictly increasing. -/
theorem c6_ordinal_counterexample :
    load_and_process_history
        [("S", [["t", "t", "t"],
                ["Name", "Workout 1 (Actual)", "Workout 1x(Actual)"],
                ["A", "p", "q"]])] =
      some [⟨"S", "Workout 1 (Actual)", "A", "p", 1⟩,
            ⟨"S", "Workout 1x(Actual)", "A", "q", 1⟩] ∧
    ¬ List.Chain' (fun a b : Nat => a < b)
        (((load_and_process_history
            [("S", [["t", "t", "t"],
                    ["Name", "Workout 1 (Actual)", "Workout 1x(Actual)"],
                    ["A", "p", "q"]])]).getD []).map
          (fun r => r.workoutOrder)) := by
  constructor
  · decide
  · have hm : (((load_and_process_history
        [("S", [["t", "t", "t"],
                ["Name", "Workout 1 (Actual)", "Workout 1x(Actual)"],
                ["A", "p", "q"]])]).getD []).map
          (fun r => r.workoutOrder)) = [1, 1] := by decide
    rw [hm]
    intro hch
    rw [List.chain'_cons] at hch
    exact absurd hch.1 (lt_irrefl 1)

theorem countLeading_cons_blank {row : List String} {rest : Grid}
    (h : (row.headD "").isEmpty = true) : countLeading (row :: rest) = 0 := by
  unfold countLeading; rw [if_pos h]

theorem countLeading_cons_named {row : List String} {rest : Grid}
    (h : ¬ (row.headD "").isEmpty = true) :
    countLeading (row :: rest) = countLeading rest + 1 := by
  conv_lhs => rw [countLeading]
  rw [if_neg h]

/-- A sheet whose exercise block is empty produces no to-do entries: the
assembly loop breaks at once. -/
theorem buildTodos_of_countLeading_zero (rows : Grid) (c start : Nat)
    (h : countLeading rows = 0) : buildTodos c start rows = some [] := by
  cases rows with
  | nil => rfl
  | cons row rest =>
    by_cases hb : (row.headD "").isEmpty
    · unfold buildTodos; rw [if_pos hb]
    · rw [countLeading_cons_named hb] at h
      exact absurd h (Nat.succ_ne_zero _)

/-- Every to-do entry produced for column `c` starting at row offset `start`
targets gspread column `c + 1` and a gspread row between `start + 3` and
`start + blockLength + 2`. -/
theorem buildTodos_mem_bounds (rows : Grid) :
    ∀ (c start : Nat) (todos : List Exercise),
      buildTodos c start rows = some todos →
      ∀ e ∈ todos, e.gspread_col = c + 1 ∧ start + 3 ≤ e.gspread_row ∧
        e.gspread_row ≤ start + countLeading rows + 2 := by
  induction rows with
  | nil =>
    intro c start todos h e he
    injection h with h; subst h; cases he
  | cons row rest ih =>
    intro c start todos h e he
    unfold buildTodos at h
    split at h
    · injection h with h; subst h; cases he
    · rename_i hb
      rw [countLeading_cons_named hb]
      split at h
      · exact absurd h (by simp)
      · split at h
        · split at h
          · rename_i v hg hv sg rg rs todos' h1 h2 h3 hrec
            injection h with h; subst h
            rcases List.mem_cons.mp he with rfl | he
            · refine ⟨rfl, Nat.le_refl _, ?_⟩
              show start + 3 ≤ start + (countLeading rest + 1) + 2
              omega
            · obtain ⟨hcol, hlo, hhi⟩ := ih c (start + 1) todos' hrec e he
              exact ⟨hcol, by omega, by omega⟩
          · exact absurd h (by simp)
        · obtain ⟨hcol, hlo, hhi⟩ := ih c (start + 1) todos h e he
          exact ⟨hcol, by omega, by omega⟩

/-- The gspread rows of the produced to-do list are strictly increasing. -/
theorem buildTodos_pairwise (rows : Grid) :
    ∀ (c start : Nat) (todos : List Exercise),
      buildTodos c start rows = some todos →
      todos.Pairwise (fun a b => a.gspread_row < b.gspread_row) := by
  induction rows with
  | nil =>
    intro c start todos h
    injection h with h; subst h; exact List.Pairwise.nil
  | cons row rest ih =>
    intro c start todos h
    unfold buildTodos at h
    split at h
    · injection h with h; subst h; exact List.Pairwise.nil
    · split at h
      · exact absurd h (by simp)
      · split at h
        · split at h
          · rename_i v hg hv sg rg rs todos' h1 h2 h3 hrec
            injection h with h; subst h
            refine List.Pairwise.cons ?_ (ih c (start + 1) todos' hrec)
            intro b hb'
            have := (buildTodos_mem_bounds rest c (start + 1) todos' hrec b hb').2.1
            show start + 3 < b.gspread_row
            omega
          · exact absurd h (by simp)
        · exact ih c (start + 1) todos h

/-- The row whose empty cell selected the column (the last row of the block)
always contributes an entry with gspread row `start + blockLength + 2`. -/
theorem buildTodos_last_mem (rows : Grid) :
    ∀ (n c start : Nat) (todos : List Exercise),
      countLeading rows = n → 1 ≤ n →
      (rows.getD (n - 1) []).get? c = some "" →
      buildTodos c start rows = some todos →
      ∃ e ∈ todos, e.gspread_row = start + n + 2 := by
  induction rows with
  | nil =>
    intro n c start todos hn hn1 _ _
    rw [show countLeading [] = 0 from rfl] at hn
    omega
  | cons row rest ih =>
    intro n c start todos hn hn1 hcell h
    unfold buildTodos at h
    split at h
    · rename_i hb
      rw [countLeading_cons_blank hb] at hn; omega
    · rename_i hb
      rw [countLeading_cons_named hb] at hn
      split at h
      · exact absurd h (by simp)
      · rename_i v hg
        rcases Nat.lt_or_ge 1 n with hn2 | hn2
        · -- the selected row is further down the block
          have hrest : countLeading rest = n - 1 := by omega
          have hcell' : (rest.getD (n - 1 - 1) []).get? c = some "" := by
            have hgd : (row :: rest).getD (n - 1) [] = rest.getD (n - 1 - 1) [] := by
              rcases Nat.exists_eq_add_of_lt hn2 with ⟨m, hm⟩
              have hx : n - 1 = m + 1 := by omega
              rw [hx, List.getD_cons_succ]
              simp
            rw [← hgd]; exact hcell
          split at h
          · split at h
            · rename_i hv sg rg rs todos' h1 h2 h3 hrec
              injection h with h; subst h
              obtain ⟨e, he, hrow⟩ :=
                ih (n - 1) c (start + 1) todos' hrest (by omega) hcell' hrec
              exact ⟨e, List.mem_cons_of_mem _ he, by omega⟩
            · exact absurd h (by simp)
          · obtain ⟨e, he, hrow⟩ :=
              ih (n - 1) c (start + 1) todos hrest (by omega) hcell' h
            exact ⟨e, he, by omega⟩
        · -- n = 1: the selected row is this row
          have hn' : n = 1 := by omega
          subst hn'
          rw [show (1 : Nat) - 1 = 0 from rfl, List.getD_cons_zero] at hcell
          rw [hcell] at hg
          injection hg with hg
          split at h
          · split at h
            · rename_i hv sg rg rs todos' h1 h2 h3 hrec
              injection h with h; subst h
              refine ⟨_, List.mem_cons_self _ _, ?_⟩
              show start + 3 = start + 1 + 2
              omega
            · exact absurd h (by simp)
          · rename_i hv
            exact absurd (by rw [← hg]; rfl) hv

/-- Workout-actual columns whose cell in the last block row is non-empty are
passed over by the column loop. -/
theorem pickColumn_skip_filled (title : String) (rows : Grid)
    (headers lastRow : List String) :
    ∀ (cpre cs : List Nat),
      (∀ x ∈ cpre, ∃ v, lastRow.get? x = some v ∧ ¬ v.isEmpty = true) →
      pickColumn title rows headers lastRow (cpre ++ cs) =
        pickColumn title rows headers lastRow cs := by
  intro cpre
  induction cpre with
  | nil => intro cs _; rfl
  | cons x xs ih =>
    intro cs hall
    obtain ⟨v, hv, hne⟩ := hall x (List.mem_cons_self _ _)
    have hstep : pickColumn title rows headers lastRow ((x :: xs) ++ cs) =
        pickColumn title rows headers lastRow (xs ++ cs) := by
      rw [List.cons_append]
      conv_lhs => rw [pickColumn]
      simp only [hv, if_neg hne]
    rw [hstep]
    exact ih cs (fun y hy => hall y (List.mem_cons_of_mem _ hy))

/-- When the column loop produces a result, the result names the processed
sheet, a column of the list whose last-block-row cell is empty, and the
non-empty to-do list computed for that column. -/
theorem pickColumn_some (title : String) (rows : Grid)
    (headers lastRow : List String) :
    ∀ (cols : List Nat) (r : String × List Exercise × String),
      pickColumn title rows headers lastRow cols = some (some r) →
      ∃ c ∈ cols, (∃ v, lastRow.get? c = some v ∧ v.isEmpty = true) ∧
        ∃ todos, buildTodos c 0 rows = some todos ∧ todos ≠ [] ∧
          r = (title, todos, headers.getD c "") := by
  intro cols
  induction cols with
  | nil =>
    intro r h
    injection h with h; exact absurd h (by simp)
  | cons c cs ih =>
    intro r h
    unfold pickColumn at h
    split at h
    · exact absurd h (by simp)
    · rename_i v hg
      split at h
      · rename_i hv
        split at h
        · exact absurd h (by simp)
        · rename_i todos hb
          split at h
          · obtain ⟨c', hc', hrest⟩ := ih r h
            exact ⟨c', List.mem_cons_of_mem _ hc', hrest⟩
          · rename_i hte
            injection h with h
            injection h with h
            exact ⟨c, List.mem_cons_self _ _, ⟨v, hg, hv⟩,
              todos, hb, fun hnil => hte (by rw [hnil]; rfl), h.symm⟩
      · obtain ⟨c', hc', hrest⟩ := ih r h
        exact ⟨c', List.mem_cons_of_mem _ hc', hrest⟩

/-- When the sheet loop produces a workout, the result comes from one of the
sheets: its title, a column choice with an empty last-block-row cell, and the
non-empty list computed by the to-do assembly for that column. -/
theorem findNextAux_some (sheets : Sheets) :
    ∀ (r : String × List Exercise × String),
      findNextAux sheets = some (some r) →
      ∃ p ∈ sheets, p.1 = r.1 ∧ r.2.1 ≠ [] ∧
        1 ≤ countLeading (p.2.drop 2) ∧
        ∃ c, buildTodos c 0 (p.2.drop 2) = some r.2.1 ∧
          ∃ v, ((p.2.drop 2).getD (countLeading (p.2.drop 2) - 1) []).get? c =
              some v ∧ v.isEmpty = true := by
  induction sheets with
  | nil =>
    intro r h
    injection h with h; exact absurd h (by simp)
  | cons p rest ih =>
    intro r h
    obtain ⟨title, data⟩ := p
    simp only [findNextAux] at h
    split at h
    · obtain ⟨q, hq, hrest⟩ := ih r h
      exact ⟨q, List.mem_cons_of_mem _ hq, hrest⟩
    · split at h
      · obtain ⟨q, hq, hrest⟩ := ih r h
        exact ⟨q, List.mem_cons_of_mem _ hq, hrest⟩
      · split at h
        · obtain ⟨q, hq, hrest⟩ := ih r h
          exact ⟨q, List.mem_cons_of_mem _ hq, hrest⟩
        · rename_i h3 hce hn
          split at h
          · exact absurd h (by simp)
          · rename_i r0 hp
            injection h with h
            injection h with h
            subst h
            obtain ⟨c, _hc, ⟨v, hv, hve⟩, todos, hb, hne, hr⟩ :=
              pickColumn_some title (data.drop 2) (data.getD 1 [])
                ((data.drop 2).getD (countLeading (data.drop 2) - 1) [])
                ((workoutColsOf (data.getD 1 [])).map Prod.fst) r0 hp
            subst hr
            exact ⟨(title, data), List.mem_cons_self _ _, rfl, hne,
              Nat.one_le_iff_ne_zero.mpr hn, c, hb, v, hv, hve⟩
          · obtain ⟨q, hq, hrest⟩ := ih r h
            exact ⟨q, List.mem_cons_of_mem _ hq, hrest⟩

/-- Core resolver computation: on a qualifying sheet, when `c` is the first
workout-actual column whose cell in the last block row is empty, the resolver
returns exactly the to-do list computed for `c` (exception included), with the
sheet title and the header of `c` — the non-emptiness guard on line 260 never
diverts to a later column, because the list always contains the last block
row's entry. -/
theorem findNextAux_cons_selected (title : String) (data : Grid) (rest : Sheets)
    (cpre csuf : List Nat) (c n : Nat)
    (hlen : 3 ≤ data.length)
    (hcols : (workoutColsOf (data.getD 1 [])).map Prod.fst = cpre ++ c :: csuf)
    (hn : countLeading (data.drop 2) = n) (hn1 : 1 ≤ n)
    (hpre : ∀ x ∈ cpre, ∃ v, ((data.drop 2).getD (n - 1) []).get? x = some v ∧
      ¬ v.isEmpty = true)
    (hcell : ((data.drop 2).getD (n - 1) []).get? c = some "") :
    findNextAux ((title, data) :: rest) =
      (buildTodos c 0 (data.drop 2)).map
        (fun todos => some (title, todos, (data.getD 1 []).getD c "")) := by
  have hpick : pickColumn title (data.drop 2) (data.getD 1 [])
      ((data.drop 2).getD (n - 1) []) (c :: csuf) =
      (buildTodos c 0 (data.drop 2)).map
        (fun todos => some (title, todos, (data.getD 1 []).getD c "")) := by
    conv_lhs => rw [pickColumn]
    simp only [hcell]
    rw [if_pos (by decide : ("" : String).isEmpty = true)]
    cases hb : buildTodos c 0 (data.drop 2) with
    | none => rfl
    | some todos =>
      have hne : ¬ todos.isEmpty = true := by
        obtain ⟨e, he, _⟩ :=
          buildTodos_last_mem (data.drop 2) n c 0 todos hn hn1 hcell hb
        intro hte
        rw [List.isEmpty_iff.mp hte] at he
        cases he
      show (if todos.isEmpty = true then
          pickColumn title (data.drop 2) (data.getD 1 [])
            ((data.drop 2).getD (n - 1) []) csuf
        else some (some (title, todos, (data.getD 1 []).getD c ""))) =
        Option.map (fun todos => some (title, todos, (data.getD 1 []).getD c ""))
          (some todos)
      rw [if_neg hne]
      rfl
  simp only [findNextAux]
  rw [if_neg (by omega : ¬ data.length < 3), hcols]
  rw [if_neg (by simp : ¬ ((cpre ++ c :: csuf).isEmpty = true)), hn]
  rw [if_neg (by omega : ¬ n = 0)]
  rw [pickColumn_skip_filled title (data.drop 2) (data.getD 1 [])
    ((data.drop 2).getD (n - 1) []) cpre (c :: csuf) hpre]
  rw [hpick]
  cases hb : buildTodos c 0 (data.drop 2) with
  | none => rfl
  | some todos => rfl

/-- C3: when the resolver selects a workout-actual column — the first one, in
header order, whose cell in the last exercise row of the block is empty — it
returns that sheet's title, that column's header as the day label, and the
computed to-do list as such: the result is exactly the value of the to-do
assembly for that column, so the computed list is surfaced to the caller and
later columns or sheets are not consulted. -/
theorem c3_selected_column_surfaced (title : String) (data : Grid) (rest : Sheets)
    (cpre csuf : List Nat) (c n : Nat)
    (hlen : 3 ≤ data.length)
    (hcols : (workoutColsOf (data.getD 1 [])).map Prod.fst = cpre ++ c :: csuf)
    (hn : countLeading (data.drop 2) = n) (hn1 : 1 ≤ n)
    (hpre : ∀ x ∈ cpre, ∃ v, ((data.drop 2).getD (n - 1) []).get? x = some v ∧
      ¬ v.isEmpty = true)
    (hcell : ((data.drop 2).getD (n - 1) []).get? c = some "") :
    findNextAux ((title, data) :: rest) =
      (buildTodos c 0 (data.drop 2)).map
        (fun todos => some (title, todos, (data.getD 1 []).getD c "")) :=
  findNextAux_cons_selected title data rest cpre csuf c n hlen hcols hn hn1 hpre hcell

/-- C3 witness: a concrete one-sheet snapshot whose single workout-actual
column (index 4) has an empty cell in the last (only) block row. -/
theorem c3_selected_column_surfaced_witness :
    findNextAux
        [("S", [["", "", "", "", ""],
                ["N", "S", "R", "T", "Workout 1 (Actual)"],
                ["A", "3", "10", "60 sec", ""]])] =
      (buildTodos 4 0 [["A", "3", "10", "60 sec", ""]]).map
        (fun todos => some ("S", todos,
          ((["", "", "", "", ""] ::
            ["N", "S", "R", "T", "Workout 1 (Actual)"] ::
            [["A", "3", "10", "60 sec", ""]] : Grid).getD 1 []).getD 4 "")) :=
  c3_selected_column_surfaced "S"
    [["", "", "", "", ""],
     ["N", "S", "R", "T", "Workout 1 (Actual)"],
     ["A", "3", "10", "60 sec", ""]] [] [] [] 4 1
    (by decide) (by decide) (by decide) (by decide)
    (by intro x hx; cases hx) (by decide)

/-- C9: whenever the resolver returns without exception, the sheet slot is
non-`None` exactly when the to-do list is non-empty; and when a sheet is
returned, the list contains an entry for the last row of that sheet's
exercise block — gspread row `blockLength + 2`. -/
theorem c9_sheet_iff_nonempty_todos (sheets : Sheets) (st : Option String)
    (todos : List Exercise) (day : Option String)
    (h : find_next_workout_and_exercises sheets = some (st, todos, day)) :
    ((st ≠ none) ↔ todos ≠ []) ∧
    ∀ t, st = some t → ∃ p ∈ sheets, p.1 = t ∧
      ∃ e ∈ todos, e.gspread_row = countLeading (p.2.drop 2) + 2 := by
  unfold find_next_workout_and_exercises at h
  cases hf : findNextAux sheets with
  | none => rw [hf] at h; exact absurd h (by simp)
  | some o =>
    cases o with
    | none =>
      simp only [hf] at h
      simp only [Option.some.injEq, Prod.mk.injEq] at h
      obtain ⟨h1, h2, h3⟩ := h
      subst h1; subst h2
      constructor
      · constructor
        · intro hc; exact absurd rfl hc
        · intro hc; exact absurd rfl hc
      · intro t ht; exact Option.noConfusion ht
    | some r0 =>
      obtain ⟨t0, ex0, d0⟩ := r0
      simp only [hf] at h
      simp only [Option.some.injEq, Prod.mk.injEq] at h
      obtain ⟨h1, h2, h3⟩ := h
      subst h1; subst h2
      obtain ⟨p, hp, hpt, hne, hn1, c, hb, v, hv, hve⟩ :=
        findNextAux_some sheets (t0, ex0, d0) hf
      constructor
      · constructor
        · intro _; exact hne
        · intro _; exact fun hc => Option.noConfusion hc
      · intro t ht
        injection ht with ht
        subst ht
        refine ⟨p, hp, hpt, ?_⟩
        have hv' : ((p.2.drop 2).getD (countLeading (p.2.drop 2) - 1) []).get? c =
            some "" := by
          rw [hv, (String.isEmpty_iff v).mp hve]
        obtain ⟨e, he, hrow⟩ :=
          buildTodos_last_mem (p.2.drop 2) (countLeading (p.2.drop 2)) c 0 ex0
            rfl hn1 hv' hb
        exact ⟨e, he, by omega⟩

/-- C9 witness: on a concrete snapshot the returned sheet slot is `some` and
the to-do list is non-empty, in accordance with the equivalence. -/
theorem c9_sheet_iff_nonempty_todos_witness :
    ((some "S" : Option String) ≠ none) ↔
      ([⟨"A", "3", "10", "60 sec", 3, 5⟩] : List Exercise) ≠ [] :=
  (c9_sheet_iff_nonempty_todos
    [("S", [["", "", "", "", ""],
            ["N", "S", "R", "T", "Workout 1 (Actual)"],
            ["A", "3", "10", "60 sec", ""]])]
    (some "S") [⟨"A", "3", "10", "60 sec", 3, 5⟩] (some "Workout 1 (Actual)")
    (by decide)).1

/-- C10: whenever the resolver returns a workout, all to-do entries target the
same gspread column (the chosen column's 0-based offset + 1), their gspread
rows are strictly increasing, and each row lies between 3 and
`blockLength + 2` of the returned sheet. -/
theorem c10_todo_list_shape (sheets : Sheets) (t : String)
    (todos : List Exercise) (day : String)
    (h : find_next_workout_and_exercises sheets = some (some t, todos, some day)) :
    (∃ c, ∀ e ∈ todos, e.gspread_col = c + 1) ∧
    todos.Pairwise (fun a b => a.gspread_row < b.gspread_row) ∧
    ∃ p ∈ sheets, p.1 = t ∧ ∀ e ∈ todos,
      3 ≤ e.gspread_row ∧ e.gspread_row ≤ 2 + countLeading (p.2.drop 2) := by
  unfold find_next_workout_and_exercises at h
  cases hf : findNextAux sheets with
  | none => rw [hf] at h; exact absurd h (by simp)
  | some o =>
    cases o with
    | none =>
      simp only [hf] at h
      simp only [Option.some.injEq, Prod.mk.injEq] at h
      exact absurd h.1 (by simp)
    | some r0 =>
      obtain ⟨t0, ex0, d0⟩ := r0
      simp only [hf] at h
      simp only [Option.some.injEq, Prod.mk.injEq] at h
      obtain ⟨h1, h2, h3⟩ := h
      obtain ⟨p, hp, hpt, hne, hn1, c, hb, v, hv, hve⟩ :=
        findNextAux_some sheets (t0, ex0, d0) hf
      subst h1; subst h2
      refine ⟨⟨c, fun e he => (buildTodos_mem_bounds (p.2.drop 2) c 0 ex0 hb e he).1⟩,
        buildTodos_pairwise (p.2.drop 2) c 0 ex0 hb, p, hp, hpt, fun e he => ?_⟩
      obtain ⟨_, hlo, hhi⟩ := buildTodos_mem_bounds (p.2.drop 2) c 0 ex0 hb e he
      exact ⟨by omega, by omega⟩

/-- C10 witness: on a concrete snapshot all entries share a common 1-based
gspread column. -/
theorem c10_todo_list_shape_witness :
    ∃ c, ∀ e ∈ ([⟨"A", "3", "10", "60 sec", 3, 5⟩] : List Exercise),
      e.gspread_col = c + 1 :=
  (c10_todo_list_shape
    [("S", [["", "", "", "", ""],
            ["N", "S", "R", "T", "Workout 1 (Actual)"],
            ["A", "3", "10", "60 sec", ""]])]
    "S" [⟨"A", "3", "10", "60 sec", 3, 5⟩] "Workout 1 (Actual)"
    (by decide)).1

/-- Sheets on which the resolver's loop falls through without a result or an
exception can be prepended without affecting the outcome. -/
theorem findNextAux_append (pre rest : Sheets) (h : findNextAux pre = some none) :
    findNextAux (pre ++ rest) = findNextAux rest := by
  induction pre with
  | nil => rfl
  | cons p pre' ih =>
    obtain ⟨title, data⟩ := p
    simp only [findNextAux] at h
    rw [List.cons_append]
    simp only [findNextAux]
    by_cases h3 : data.length < 3
    · rw [if_pos h3] at h ⊢
      exact ih h
    · rw [if_neg h3] at h ⊢
      by_cases hce : ((workoutColsOf (data.getD 1 [])).map Prod.fst).isEmpty
      · rw [if_pos hce] at h ⊢; exact ih h
      · rw [if_neg hce] at h ⊢
        by_cases hn0 : countLeading (data.drop 2) = 0
        · rw [if_pos hn0] at h ⊢; exact ih h
        · rw [if_neg hn0] at h ⊢
          cases hp : pickColumn title (data.drop 2) (data.getD 1 [])
              ((data.drop 2).getD (countLeading (data.drop 2) - 1) [])
              ((workoutColsOf (data.getD 1 [])).map Prod.fst) with
          | none => rw [hp] at h; exact absurd h (by simp)
          | some o =>
            cases o with
            | some r0 =>
              simp only [hp] at h
              exact absurd h (by simp)
            | none =>
              simp only [hp] at h ⊢
              exact ih h

/-- C5: on a snapshot set whose earlier sheets yield nothing and whose next
sheet has exactly two workout-actual columns `a` (all 3 block cells filled)
and `b` (only the first block cell filled), with a 3-row exercise block, the
resolver returns that sheet, the second column's header as day label, and a
to-do list of exactly two entries for block rows 2 and 3: gspread rows 4 and
5, gspread column `b + 1`. -/
theorem c5_second_column_two_entries
    (pre rest : Sheets) (title : String) (data : Grid)
    (a b : Nat) (e1 e2 e3 : List String) (tail : Grid)
    (v1a v2a v3a v1b : String)
    (s2 r2 t2 s3 r3 t3 : String)
    (hpre0 : findNextAux pre = some none)
    (hlen : 3 ≤ data.length)
    (hcols : (workoutColsOf (data.getD 1 [])).map Prod.fst = [a, b])
    (hrows : data.drop 2 = e1 :: e2 :: e3 :: tail)
    (hcl : countLeading (e1 :: e2 :: e3 :: tail) = 3)
    (h1a : e1.get? a = some v1a) (h1ane : ¬ v1a.isEmpty = true)
    (h2a : e2.get? a = some v2a) (h2ane : ¬ v2a.isEmpty = true)
    (h3a : e3.get? a = some v3a) (h3ane : ¬ v3a.isEmpty = true)
    (h1b : e1.get? b = some v1b) (h1bne : ¬ v1b.isEmpty = true)
    (h2b : e2.get? b = some "") (h3b : e3.get? b = some "")
    (h21 : e2.get? 1 = some s2) (h22 : e2.get? 2 = some r2)
    (h23 : e2.get? 3 = some t2)
    (h31 : e3.get? 1 = some s3) (h32 : e3.get? 2 = some r3)
    (h33 : e3.get? 3 = some t3) :
    find_next_workout_and_exercises (pre ++ (title, data) :: rest) =
      some (some title,
        [⟨e2.headD "", s2, r2, t2, 4, b + 1⟩,
         ⟨e3.headD "", s3, r3, t3, 5, b + 1⟩],
        some ((data.getD 1 []).getD b "")) := by
  have hb1 : ¬ (e1.headD "").isEmpty = true := by
    intro hb; rw [countLeading_cons_blank hb] at hcl; omega
  have hcl2 : countLeading (e2 :: e3 :: tail) = 2 := by
    rw [countLeading_cons_named hb1] at hcl; omega
  have hb2 : ¬ (e2.headD "").isEmpty = true := by
    intro hb; rw [countLeading_cons_blank hb] at hcl2; omega
  have hcl3 : countLeading (e3 :: tail) = 1 := by
    rw [countLeading_cons_named hb2] at hcl2; omega
  have hb3 : ¬ (e3.headD "").isEmpty = true := by
    intro hb; rw [countLeading_cons_blank hb] at hcl3; omega
  have htail : countLeading tail = 0 := by
    rw [countLeading_cons_named hb3] at hcl3; omega
  have hbt3 : buildTodos b 2 (e3 :: tail) =
      some [⟨e3.headD "", s3, r3, t3, 5, b + 1⟩] := by
    conv_lhs => rw [buildTodos]
    rw [if_neg hb3]
    simp only [h3b]
    rw [if_pos (by decide : ("" : String).isEmpty = true)]
    simp only [h31, h32, h33, buildTodos_of_countLeading_zero tail b 3 htail]
  have hbt2 : buildTodos b 1 (e2 :: e3 :: tail) =
      some [⟨e2.headD "", s2, r2, t2, 4, b + 1⟩,
            ⟨e3.headD "", s3, r3, t3, 5, b + 1⟩] := by
    conv_lhs => rw [buildTodos]
    rw [if_neg hb2]
    simp only [h2b]
    rw [if_pos (by decide : ("" : String).isEmpty = true)]
    simp only [h21, h22, h23, hbt3]
  have hbt1 : buildTodos b 0 (e1 :: e2 :: e3 :: tail) =
      some [⟨e2.headD "", s2, r2, t2, 4, b + 1⟩,
            ⟨e3.headD "", s3, r3, t3, 5, b + 1⟩] := by
    conv_lhs => rw [buildTodos]
    rw [if_neg hb1]
    simp only [h1b]
    rw [if_neg h1bne]
    exact hbt2
  have hlast : (data.drop 2).getD (3 - 1) [] = e3 := by
    rw [hrows]
    simp [List.getD_cons_succ, List.getD_cons_zero]
  unfold find_next_workout_and_exercises
  rw [findNextAux_append pre ((title, data) :: rest) hpre0]
  rw [findNextAux_cons_selected title data rest [a] [] b 3 hlen
    (by rw [hcols]; rfl)
    (by rw [hrows]; exact hcl) (by omega)
    (by
      intro x hx
      rcases List.mem_singleton.mp hx with rfl
      exact ⟨v3a, by rw [hlast]; exact h3a, h3ane⟩)
    (by rw [hlast]; exact h3b)]
  rw [hrows, hbt1]
  rfl

/-- C5 witness: a concrete sheet with workout-actual columns at offsets 4 and
5, a 3-row block, column 4 fully filled and column 5 filled only in the first
block row. -/
theorem c5_second_column_two_entries_witness :
    find_next_workout_and_exercises
        [("S", [["", "", "", "", "", ""],
                ["Name", "Sets", "Reps", "Rest",
                 "Workout 1 (Actual)", "Workout 2 (Actual)"],
                ["A", "3", "10", "60 sec", "w", "x"],
                ["B", "3", "10", "60 sec", "y", ""],
                ["C", "3", "10", "60 sec", "z", ""]])] =
      some (some "S",
        [⟨"B", "3", "10", "60 sec", 4, 6⟩, ⟨"C", "3", "10", "60 sec", 5, 6⟩],
        some "Workout 2 (Actual)") :=
  c5_second_column_two_entries [] [] "S"
    [["", "", "", "", "", ""],
     ["Name", "Sets", "Reps", "Rest", "Workout 1 (Actual)", "Workout 2 (Actual)"],
     ["A", "3", "10", "60 sec", "w", "x"],
     ["B", "3", "10", "60 sec", "y", ""],
     ["C", "3", "10", "60 sec", "z", ""]]
    4 5
    ["A", "3", "10", "60 sec", "w", "x"]
    ["B", "3", "10", "60 sec", "y", ""]
    ["C", "3", "10", "60 sec", "z", ""]
    [] "w" "y" "z" "x" "3" "10" "60 sec" "3" "10" "60 sec"
    rfl (by decide) (by decide) (by decide) (by decide)
    (by decide) (by decide) (by decide) (by decide) (by decide) (by decide)
    (by decide) (by decide) (by decide) (by decide)
    (by decide) (by decide) (by decide)
    (by decide) (by decide) (by decide)

theorem workoutColsOf_mem_lt (headers : List String) :
    ∀ pr ∈ workoutColsOf headers, pr.1 < headers.length := by
  intro pr hpr
  have hmem : pr ∈ headers.enum := List.mem_of_mem_filter hpr
  have hget := List.mem_enum_iff_getElem?.mp hmem
  exact (List.getElem?_eq_some.mp hget).1

theorem countLeading_le_length (rows : Grid) : countLeading rows ≤ rows.length := by
  induction rows with
  | nil => exact Nat.le_refl 0
  | cons row rest ih =>
    by_cases hb : (row.headD "").isEmpty
    · rw [countLeading_cons_blank hb]; exact Nat.zero_le _
    · rw [countLeading_cons_named hb]
      exact Nat.succ_le_succ ih

theorem rowFilled_some (row : List String) :
    ∀ cols : List Nat, (∀ x ∈ cols, x < row.length) →
      ∃ m, rowFilled row cols = some m ∧ m ≤ cols.length := by
  intro cols
  induction cols with
  | nil => exact fun _ => ⟨0, rfl, Nat.le_refl 0⟩
  | cons c cs ih =>
    intro h
    obtain ⟨v, hv⟩ : ∃ v, row.get? c = some v :=
      ⟨row.get ⟨c, h c (List.mem_cons_self _ _)⟩,
        List.get?_eq_get (h c (List.mem_cons_self _ _))⟩
    obtain ⟨m, hm, hmle⟩ := ih (fun x hx => h x (List.mem_cons_of_mem _ hx))
    refine ⟨(if v.isEmpty then 0 else 1) + m, ?_, ?_⟩
    · conv_lhs => rw [rowFilled]
      simp only [hv, hm]
    · have h01 : (if v.isEmpty then 0 else 1) ≤ 1 := by split <;> omega
      simp only [List.length_cons]
      omega

theorem filledInRows_some (cols : List Nat) :
    ∀ (n : Nat) (rows : Grid), n ≤ rows.length →
      (∀ row ∈ rows, ∀ x ∈ cols, x < row.length) →
      ∃ m, filledInRows cols n rows = some m ∧ m ≤ n * cols.length := by
  intro n
  induction n with
  | zero => exact fun rows _ _ => ⟨0, rfl, Nat.zero_le _⟩
  | succ n ih =>
    intro rows hn hall
    cases rows with
    | nil => exact absurd hn (by simp)
    | cons row rest =>
      obtain ⟨m1, hm1, hb1⟩ :=
        rowFilled_some row cols (hall row (List.mem_cons_self _ _))
      obtain ⟨m2, hm2, hb2⟩ := ih rest (by simpa using hn)
        (fun q hq => hall q (List.mem_cons_of_mem _ hq))
      refine ⟨m1 + m2, ?_, ?_⟩
      · conv_lhs => rw [filledInRows]
        simp only [hm1, hm2]
      · rw [Nat.succ_mul]
        omega

theorem calc_completion_aux_some (sheets : Sheets)
    (hrect : rectangularSheets sheets = true) :
    ∃ t f, calc_completion_aux sheets = some (t, f) ∧ f ≤ t := by
  induction sheets with
  | nil => exact ⟨0, 0, rfl, Nat.le_refl 0⟩
  | cons p rest ih =>
    obtain ⟨title, data⟩ := p
    rw [rectangularSheets, List.all_cons, Bool.and_eq_true] at hrect
    obtain ⟨hrd, hrrest⟩ := hrect
    have ihr := ih hrrest
    simp only [calc_completion_aux]
    by_cases h3 : data.length < 3
    · rw [if_pos h3]; exact ihr
    · rw [if_neg h3]
      by_cases hce : ((workoutColsOf (data.getD 1 [])).map Prod.fst).isEmpty
      · rw [if_pos hce]; exact ihr
      · rw [if_neg hce]
        by_cases hn0 : countLeading (data.drop 2) = 0
        · rw [if_pos hn0]; exact ihr
        · rw [if_neg hn0]
          have hhead : data.getD 1 [] ∈ data := by
            have hlt : 1 < data.length := by omega
            rw [List.getD_eq_getElem?_getD, List.getElem?_eq_getElem hlt]
            exact List.getElem_mem hlt
          have hlencell : ∀ row ∈ data.drop 2,
              ∀ x ∈ (workoutColsOf (data.getD 1 [])).map Prod.fst,
              x < row.length := by
            intro q hq x hx
            obtain ⟨pr, hpr, hfst⟩ := List.mem_map.mp hx
            have hxlt : x < (data.getD 1 []).length := by
              rw [← hfst]; exact workoutColsOf_mem_lt _ pr hpr
            have h1 : (data.getD 1 []).length = (data.headD []).length := by
              rw [rectangular, List.all_eq_true] at hrd
              simpa using hrd _ hhead
            have h2 : q.length = (data.headD []).length := by
              rw [rectangular, List.all_eq_true] at hrd
              simpa using hrd q (List.drop_subset 2 data hq)
            omega
          obtain ⟨f1, hf1, hb1⟩ := filledInRows_some
            ((workoutColsOf (data.getD 1 [])).map Prod.fst)
            (countLeading (data.drop 2)) (data.drop 2)
            (countLeading_le_length _) hlencell
          obtain ⟨t0, f0, h0, hle0⟩ := ihr
          refine ⟨countLeading (data.drop 2) *
            ((workoutColsOf (data.getD 1 [])).map Prod.fst).length + t0,
            f1 + f0, ?_, by omega⟩
          simp only [hf1, h0]

/-- C7: on every snapshot set (rectangular grids, as delivered by the
loader), the Completion Calculator returns a triple (total, filled,
percentage) with `filled ≤ total`, percentage between 0 and 100, percentage 0
when total is 0 and `100 * filled / total` otherwise. -/
theorem c7_completion_in_range (sheets : Sheets)
    (hrect : rectangularSheets sheets = true) :
    ∃ t f p, calculate_overall_completion sheets = some (t, f, p) ∧
      f ≤ t ∧ 0 ≤ p ∧ p ≤ 100 ∧
      (t = 0 → p = 0) ∧ (t ≠ 0 → p = 100 * (f : ℚ) / (t : ℚ)) := by
  obtain ⟨t, f, haux, hle⟩ := calc_completion_aux_some sheets hrect
  unfold calculate_overall_completion
  simp only [haux]
  by_cases ht : t = 0
  · rw [if_pos ht]
    exact ⟨0, 0, 0, rfl, Nat.le_refl 0, le_refl 0, by norm_num,
      fun _ => rfl, fun h0 => absurd rfl h0⟩
  · rw [if_neg ht]
    have htpos : (0 : ℚ) < (t : ℚ) := by
      exact_mod_cast Nat.pos_of_ne_zero ht
    have hfle : (f : ℚ) ≤ (t : ℚ) := by exact_mod_cast hle
    refine ⟨t, f, (f : ℚ) / (t : ℚ) * 100, rfl, hle, ?_, ?_, ?_, ?_⟩
    · positivity
    · have hdiv : (f : ℚ) / (t : ℚ) ≤ 1 := (div_le_one htpos).mpr hfle
      calc (f : ℚ) / (t : ℚ) * 100 ≤ 1 * 100 :=
            mul_le_mul_of_nonneg_right hdiv (by norm_num)
        _ = 100 := by norm_num
    · intro h0; exact absurd h0 ht
    · intro _; ring

/-- C7 witness: a concrete rectangular snapshot (1 slot, 1 filled). -/
theorem c7_completion_in_range_witness :
    ∃ t f p, calculate_overall_completion
        [("M", [["", ""], ["N", "Workout 1 (Actual)"], ["A", "x"]])] =
      some (t, f, p) ∧
      f ≤ t ∧ 0 ≤ p ∧ p ≤ 100 ∧
      (t = 0 → p = 0) ∧ (t ≠ 0 → p = 100 * (f : ℚ) / (t : ℚ)) :=
  c7_completion_in_range
    [("M", [["", ""], ["N", "Workout 1 (Actual)"], ["A", "x"]])] (by decide)

theorem headD_set_of_pos (row : List String) (k : Nat) (v : String) :
    (row.set (k + 1) v).headD "" = row.headD "" := by
  cases row <;> rfl

/-- Changing a non-name cell (column offset at least 1) of any row leaves the
exercise-block length unchanged. -/
theorem countLeading_set (v : String) (k : Nat) :
    ∀ (rows : Grid) (i : Nat) (row : List String), rows.get? i = some row →
      countLeading (rows.set i (row.set (k + 1) v)) = countLeading rows := by
  intro rows
  induction rows with
  | nil => intro i row h; exact absurd h (by simp)
  | cons q rest ih =>
    intro i row h
    cases i with
    | zero =>
      injection h with h
      subst h
      show countLeading ((q.set (k + 1) v) :: rest) = countLeading (q :: rest)
      by_cases hb : (q.headD "").isEmpty
      · rw [countLeading_cons_blank (by rw [headD_set_of_pos]; exact hb),
          countLeading_cons_blank hb]
      · rw [countLeading_cons_named (by rw [headD_set_of_pos]; exact hb),
          countLeading_cons_named hb]
    | succ j =>
      have h' : rest.get? j = some row := h
      show countLeading (q :: rest.set j (row.set (k + 1) v)) =
        countLeading (q :: rest)
      by_cases hb : (q.headD "").isEmpty
      · rw [countLeading_cons_blank hb, countLeading_cons_blank hb]
      · rw [countLeading_cons_named hb, countLeading_cons_named hb, ih j row h']

/-- Filling one empty cell raises a row's filled count by the number of
occurrences of its column among the scanned column indices. -/
theorem rowFilled_set (row : List String) (c : Nat) (v : String)
    (hget : row.get? c = some "") (hv : ¬ v.isEmpty = true) :
    ∀ cols : List Nat,
      rowFilled (row.set c v) cols = (rowFilled row cols).map (· + cols.count c) := by
  obtain ⟨hlt, -⟩ := List.get?_eq_some.mp hget
  intro cols
  induction cols with
  | nil => simp [rowFilled]
  | cons x cs ih =>
    by_cases hxc : x = c
    · subst hxc
      have hLget : (row.set x v).get? x = some v := List.get?_set_eq_of_lt v hlt
      conv_lhs => rw [rowFilled]
      conv_rhs => rw [rowFilled]
      simp only [hLget, hget, ih]
      rw [if_neg hv, if_pos (by decide : ("" : String).isEmpty = true),
        List.count_cons_self]
      cases hm : rowFilled row cs with
      | none => rfl
      | some m =>
        simp only [Option.map_some', Option.some.injEq]
        omega
    · have hne : c ≠ x := fun e => hxc e.symm
      have hLget : (row.set c v).get? x = row.get? x := List.get?_set_ne _ _ hne
      conv_lhs => rw [rowFilled]
      conv_rhs => rw [rowFilled]
      rw [hLget, List.count_cons_of_ne (fun e => hxc e.symm)]
      cases hg : row.get? x with
      | none => rfl
      | some w =>
        simp only [ih]
        cases hm : rowFilled row cs with
        | none => rfl
        | some m =>
          simp only [Option.map_some', Option.some.injEq]
          omega

/-- Filling one empty cell of row `i` raises the filled-slot count of the
first `n` rows by `count` when `i < n` and leaves it unchanged otherwise. -/
theorem filledInRows_set (cols : List Nat) (c : Nat) (v : String)
    (hv : ¬ v.isEmpty = true) :
    ∀ (n : Nat) (rows : Grid) (i : Nat) (row : List String),
      rows.get? i = some row → row.get? c = some "" →
      filledInRows cols n (rows.set i (row.set c v)) =
        (filledInRows cols n rows).map
          (· + if i < n then cols.count c else 0) := by
  intro n
  induction n with
  | zero =>
    intro rows i row _ _
    simp [filledInRows]
  | succ n ih =>
    intro rows i row hi hget
    cases rows with
    | nil => exact absurd hi (by simp)
    | cons q rest =>
      cases i with
      | zero =>
        injection hi with hi
        subst hi
        show filledInRows cols (n + 1) ((q.set c v) :: rest) = _
        conv_lhs => rw [filledInRows]
        conv_rhs => rw [filledInRows]
        rw [rowFilled_set q c v hget hv cols]
        cases hm : rowFilled q cols with
        | none => rfl
        | some m =>
          simp only [Option.map_some']
          cases hrest : filledInRows cols n rest with
          | none => rfl
          | some m2 =>
            simp only [Option.map_some', Option.some.injEq]
            have : (0 : Nat) < n + 1 := Nat.succ_pos n
            rw [if_pos this]
            omega
      | succ j =>
        have hj : rest.get? j = some row := hi
        show filledInRows cols (n + 1) (q :: rest.set j (row.set c v)) = _
        conv_lhs => rw [filledInRows]
        conv_rhs => rw [filledInRows]
        rw [ih rest j row hj hget]
        cases hm : rowFilled q cols with
        | none => rfl
        | some m =>
          cases hrest : filledInRows cols n rest with
          | none => rfl
          | some m2 =>
            simp only [Option.map_some', Option.some.injEq]
            by_cases hjn : j < n
            · rw [if_pos hjn, if_pos (by omega : j + 1 < n + 1)]
              omega
            · rw [if_neg hjn, if_neg (by omega : ¬ j + 1 < n + 1)]
              omega

theorem drop2_set (l : Grid) (i : Nat) (a : List String) (h : 2 ≤ i) :
    (l.set i a).drop 2 = (l.drop 2).set (i - 2) a := by
  obtain ⟨j, rfl⟩ : ∃ j, i = j + 2 := ⟨i - 2, by omega⟩
  cases l with
  | nil => rfl
  | cons x xs =>
    cases xs with
    | nil => rfl
    | cons y ys => rfl

/-- Filling one empty non-name cell of an exercise row (row index at least 2,
column offset at least 1) in one sheet leaves `total_slots` unchanged and
raises `filled_slots` by some δ ≥ 0. -/
theorem calc_aux_set (title : String) (data : Grid) (r c : Nat)
    (row : List String) (v : String)
    (hr : data.get? r = some row) (hr2 : 2 ≤ r)
    (hcell : row.get? c = some "") (hc1 : 1 ≤ c) (hv : ¬ v.isEmpty = true) :
    ∀ (sheets : Sheets) (s : Nat), sheets.get? s = some (title, data) →
      ∃ δ, calc_completion_aux (sheets.set s (title, data.set r (row.set c v))) =
        (calc_completion_aux sheets).map (fun tf => (tf.1, tf.2 + δ)) := by
  obtain ⟨k, rfl⟩ : ∃ k, c = k + 1 := ⟨c - 1, by omega⟩
  obtain ⟨hrlt, -⟩ := List.get?_eq_some.mp hr
  have hlen3 : ¬ data.length < 3 := by omega
  have hlen2 : (data.set r (row.set (k + 1) v)).length = data.length :=
    List.length_set data r _
  have hget1 : (data.set r (row.set (k + 1) v)).get? 1 = data.get? 1 :=
    List.get?_set_ne _ _ (by omega : r ≠ 1)
  have hhd : (data.set r (row.set (k + 1) v)).getD 1 [] = data.getD 1 [] := by
    rw [List.getD_eq_getElem?_getD, List.getD_eq_getElem?_getD,
      ← List.get?_eq_getElem?, ← List.get?_eq_getElem?, hget1]
  have hdrop : (data.set r (row.set (k + 1) v)).drop 2 =
      (data.drop 2).set (r - 2) (row.set (k + 1) v) :=
    drop2_set data r _ hr2
  have hget' : (data.drop 2).get? (r - 2) = some row := by
    rw [List.get?_drop]
    have h2r : 2 + (r - 2) = r := by omega
    rw [h2r]; exact hr
  have hid : ∀ (o : Option (Nat × Nat)),
      o = o.map (fun tf => (tf.1, tf.2 + 0)) := by
    intro o; cases o with
    | none => rfl
    | some q => simp
  intro sheets
  induction sheets with
  | nil => intro s hs; exact absurd hs (by simp)
  | cons p rest ih =>
    intro s hs
    cases s with
    | zero =>
      injection hs with hs
      subst hs
      show ∃ δ, calc_completion_aux
          ((title, data.set r (row.set (k + 1) v)) :: rest) =
        (calc_completion_aux ((title, data) :: rest)).map
          (fun tf => (tf.1, tf.2 + δ))
      simp only [calc_completion_aux]
      rw [hlen2, hhd, hdrop]
      rw [countLeading_set v k (data.drop 2) (r - 2) row hget']
      simp only [if_neg hlen3]
      by_cases hce : ((workoutColsOf (data.getD 1 [])).map Prod.fst).isEmpty
      · simp only [if_pos hce]
        exact ⟨0, hid _⟩
      · simp only [if_neg hce]
        by_cases hn0 : countLeading (data.drop 2) = 0
        · simp only [if_pos hn0]
          exact ⟨0, hid _⟩
        · simp only [if_neg hn0]
          rw [filledInRows_set ((workoutColsOf (data.getD 1 [])).map Prod.fst)
            (k + 1) v hv (countLeading (data.drop 2)) (data.drop 2) (r - 2) row
            hget' hcell]
          cases hfi : filledInRows ((workoutColsOf (data.getD 1 [])).map Prod.fst)
              (countLeading (data.drop 2)) (data.drop 2) with
          | none => exact ⟨0, rfl⟩
          | some f1 =>
            simp only [Option.map_some']
            cases hrest : calc_completion_aux rest with
            | none => exact ⟨0, rfl⟩
            | some tf0 =>
              obtain ⟨t0, f0⟩ := tf0
              refine ⟨if r - 2 < countLeading (data.drop 2) then
                ((workoutColsOf (data.getD 1 [])).map Prod.fst).count (k + 1)
                else 0, ?_⟩
              simp only [Option.map_some', Option.some.injEq, Prod.mk.injEq]
              exact ⟨trivial, by omega⟩
    | succ j =>
      have hs' : rest.get? j = some (title, data) := hs
      obtain ⟨δ, hIH⟩ := ih j hs'
      refine ⟨δ, ?_⟩
      show calc_completion_aux
          (p :: rest.set j (title, data.set r (row.set (k + 1) v))) = _
      obtain ⟨pt, pd⟩ := p
      simp only [calc_completion_aux]
      by_cases h3 : pd.length < 3
      · simp only [if_pos h3]
        exact hIH
      · simp only [if_neg h3]
        by_cases hce : ((workoutColsOf (pd.getD 1 [])).map Prod.fst).isEmpty
        · simp only [if_pos hce]
          exact hIH
        · simp only [if_neg hce]
          by_cases hn0 : countLeading (pd.drop 2) = 0
          · simp only [if_pos hn0]
            exact hIH
          · simp only [if_neg hn0]
            rw [hIH]
            cases hfi : filledInRows ((workoutColsOf (pd.getD 1 [])).map Prod.fst)
                (countLeading (pd.drop 2)) (pd.drop 2) with
            | none => rfl
            | some f1 =>
              cases hrest : calc_completion_aux rest with
              | none => rfl
              | some tf0 =>
                obtain ⟨t0, f0⟩ := tf0
                simp only [Option.map_some', Option.some.injEq, Prod.mk.injEq]
                exact ⟨trivial, by omega⟩

/-- C8: filling exactly one empty result cell — a cell of an exercise row
(row index ≥ 2) outside the name column — with a non-empty value can only
raise the completion percentage. -/
theorem c8_percentage_monotone (sheets : Sheets) (s : Nat) (title : String)
    (data : Grid) (r c : Nat) (row : List String) (v : String)
    (t f : Nat) (p : ℚ)
    (hs : sheets.get? s = some (title, data))
    (hr : data.get? r = some row) (hr2 : 2 ≤ r)
    (hcell : row.get? c = some "") (hc1 : 1 ≤ c)
    (hv : ¬ v.isEmpty = true)
    (hA : calculate_overall_completion sheets = some (t, f, p)) :
    ∃ t2 f2 p2, calculate_overall_completion
        (sheets.set s (title, data.set r (row.set c v))) = some (t2, f2, p2) ∧
      p ≤ p2 := by
  obtain ⟨δ, hB⟩ := calc_aux_set title data r c row v hr hr2 hcell hc1 hv sheets s hs
  unfold calculate_overall_completion at hA ⊢
  cases haux : calc_completion_aux sheets with
  | none =>
    simp only [haux] at hA
    exact absurd hA (by simp)
  | some tf =>
    obtain ⟨t1, f1⟩ := tf
    simp only [haux] at hA
    simp only [haux, Option.map_some'] at hB
    simp only [hB]
    by_cases ht1 : t1 = 0
    · rw [if_pos ht1] at hA ⊢
      simp only [Option.some.injEq, Prod.mk.injEq] at hA
      refine ⟨0, 0, 0, rfl, ?_⟩
      rw [← hA.2.2]
    · rw [if_neg ht1] at hA ⊢
      simp only [Option.some.injEq, Prod.mk.injEq] at hA
      obtain ⟨ht, hf, hp⟩ := hA
      refine ⟨t1, f1 + δ, ((f1 + δ : Nat) : ℚ) / (t1 : ℚ) * 100, rfl, ?_⟩
      rw [← hp]
      have htpos : (0 : ℚ) < (t1 : ℚ) := by
        exact_mod_cast Nat.pos_of_ne_zero ht1
      have hle : (f1 : ℚ) ≤ ((f1 + δ : Nat) : ℚ) := by
        exact_mod_cast Nat.le_add_right f1 δ
      exact mul_le_mul_of_nonneg_right
        ((div_le_div_right htpos).mpr hle) (by norm_num)

/-- C8 witness: one sheet, one exercise row with an empty workout-actual
cell; filling it raises the percentage from 0 to 100 (in particular it does
not decrease). -/
theorem c8_percentage_monotone_witness :
    ∃ t2 f2 p2, calculate_overall_completion
        [("M", [["", ""], ["N", "Workout 1 (Actual)"], ["A", "x"]])] =
      some (t2, f2, p2) ∧ (0 : ℚ) ≤ p2 :=
  c8_percentage_monotone
    [("M", [["", ""], ["N", "Workout 1 (Actual)"], ["A", ""]])]
    0 "M" [["", ""], ["N", "Workout 1 (Actual)"], ["A", ""]]
    2 1 ["A", ""] "x" 1 0 0
    (by decide) (by decide) (by decide) (by decide) (by decide) (by decide)
    (by
      have haux : calc_completion_aux
          [("M", [["", ""], ["N", "Workout 1 (Actual)"], ["A", ""]])] =
        some (1, 0) := by decide
      unfold calculate_overall_completion
      rw [haux]
      norm_num)

theorem processRowCols_some (t : String) (counter : Nat) (name : String)
    (row : List String) :
    ∀ cols : List (Nat × String),
      (∀ pr ∈ cols, pr.1 < row.length) →
      (∀ pr ∈ cols, (digitOfHeader pr.2).isSome = true) →
      ∃ recs, processRowCols t counter name row cols = some recs := by
  intro cols
  induction cols with
  | nil => exact fun _ _ => ⟨[], rfl⟩
  | cons pr cs ih =>
    intro hlt hdig
    obtain ⟨ci, dt⟩ := pr
    obtain ⟨v, hv⟩ : ∃ v, row.get? ci = some v :=
      ⟨row.get ⟨ci, hlt _ (List.mem_cons_self _ _)⟩,
        List.get?_eq_get (hlt _ (List.mem_cons_self _ _))⟩
    obtain ⟨recs, hrecs⟩ := ih (fun q hq => hlt q (List.mem_cons_of_mem _ hq))
      (fun q hq => hdig q (List.mem_cons_of_mem _ hq))
    by_cases hve : v.isEmpty
    · refine ⟨recs, ?_⟩
      conv_lhs => rw [processRowCols]
      simp only [hv]
      rw [if_pos hve]
      exact hrecs
    · obtain ⟨d, hd⟩ := Option.isSome_iff_exists.mp
        (hdig (ci, dt) (List.mem_cons_self _ _))
      refine ⟨⟨t, dt, name, v, counter + d⟩ :: recs, ?_⟩
      conv_lhs => rw [processRowCols]
      simp only [hv, hd, hrecs]
      rw [if_neg hve]

theorem processRows_some (t : String) (counter : Nat)
    (cols : List (Nat × String))
    (hdig : ∀ pr ∈ cols, (digitOfHeader pr.2).isSome = true) :
    ∀ rows : Grid,
      (∀ row ∈ rows, 1 ≤ row.length ∧ ∀ pr ∈ cols, pr.1 < row.length) →
      ∃ recs, processRows t counter cols rows = some recs := by
  intro rows
  induction rows with
  | nil => exact fun _ => ⟨[], rfl⟩
  | cons row rest ih =>
    intro hall
    obtain ⟨h1, hcols⟩ := hall row (List.mem_cons_self _ _)
    obtain ⟨name, hname⟩ : ∃ name, row.get? 0 = some name :=
      ⟨row.get ⟨0, by omega⟩, List.get?_eq_get (by omega)⟩
    obtain ⟨b, hb⟩ := ih (fun q hq => hall q (List.mem_cons_of_mem _ hq))
    by_cases hne : name.isEmpty
    · refine ⟨b, ?_⟩
      conv_lhs => rw [processRows]
      simp only [hname]
      rw [if_pos hne]
      exact hb
    · obtain ⟨a, ha⟩ := processRowCols_some t counter name row cols hcols hdig
      refine ⟨a ++ b, ?_⟩
      conv_lhs => rw [processRows]
      simp only [hname, ha, hb]
      rw [if_neg hne]

theorem extractHistory_some :
    ∀ (sheets : Sheets) (counter : Nat),
      rectangularSheets sheets = true → wellFormedHeaders sheets = true →
      ∃ recs, extractHistory sheets counter = some recs := by
  intro sheets
  induction sheets with
  | nil => exact fun _ _ _ => ⟨[], rfl⟩
  | cons p rest ih =>
    intro counter hrect hwf
    obtain ⟨title, data⟩ := p
    rw [rectangularSheets, List.all_cons, Bool.and_eq_true] at hrect
    obtain ⟨hrd, hrrest⟩ := hrect
    rw [wellFormedHeaders, List.all_cons, Bool.and_eq_true] at hwf
    obtain ⟨hwd, hwrest⟩ := hwf
    simp only [extractHistory]
    by_cases h3 : data.length < 3
    · rw [if_pos h3]; exact ih counter hrrest hwrest
    · rw [if_neg h3]
      by_cases hce : (workoutColsOf (data.getD 1 [])).isEmpty
      · rw [if_pos hce]; exact ih counter hrrest hwrest
      · rw [if_neg hce]
        have hdig : ∀ pr ∈ workoutColsOf (data.getD 1 []),
            (digitOfHeader pr.2).isSome = true := by
          intro pr hpr
          rw [List.all_eq_true] at hwd
          have := hwd pr (by rw [colsOfData, if_neg h3]; exact hpr)
          simpa using this
        have hhead : data.getD 1 [] ∈ data := by
          have hlt : 1 < data.length := by omega
          rw [List.getD_eq_getElem?_getD, List.getElem?_eq_getElem hlt]
          exact List.getElem_mem hlt
        have hL : (data.getD 1 []).length = (data.headD []).length := by
          rw [rectangular, List.all_eq_true] at hrd
          simpa using hrd _ hhead
        obtain ⟨pr0, hpr0⟩ := List.exists_mem_of_ne_nil
          (workoutColsOf (data.getD 1 []))
          (fun hnil => hce (by rw [hnil]; rfl))
        have hL1 : 1 ≤ (data.headD []).length := by
          have := workoutColsOf_mem_lt (data.getD 1 []) pr0 hpr0
          omega
        have hall : ∀ row ∈ data.drop 2, 1 ≤ row.length ∧
            ∀ pr ∈ workoutColsOf (data.getD 1 []), pr.1 < row.length := by
          intro q hq
          have hqL : q.length = (data.headD []).length := by
            rw [rectangular, List.all_eq_true] at hrd
            simpa using hrd q (List.drop_subset 2 data hq)
          constructor
          · omega
          · intro pr hpr
            have := workoutColsOf_mem_lt (data.getD 1 []) pr hpr
            omega
        obtain ⟨a, ha⟩ := processRows_some title counter
          (workoutColsOf (data.getD 1 [])) hdig (data.drop 2) hall
        obtain ⟨b, hb⟩ := ih (counter + (workoutColsOf (data.getD 1 [])).length)
          hrrest hwrest
        exact ⟨a ++ b, by simp only [ha, hb]⟩

/-- C2, amended: the history extraction raises (aborting the whole scan, as
the counterexample shows) when a workout-actual header lacks a digit at
offset 8 and a named row has a non-empty cell under it; the offending sheet
is not skipped.  Conversely, when every workout-actual column header of every
sheet carries a digit character at offset 8 and every sheet's grid is
rectangular, the scan never raises. -/
theorem c2_history_no_raise (sheets : Sheets)
    (hrect : rectangularSheets sheets = true)
    (hwf : wellFormedHeaders sheets = true) :
    ∃ recs, load_and_process_history sheets = some recs :=
  extractHistory_some sheets 0 hrect hwf

/-- C2 witness: a concrete rectangular snapshot with well-formed headers. -/
theorem c2_history_no_raise_witness :
    ∃ recs, load_and_process_history
        [("G", [["t", ""], ["Name", "Workout 1 (Actual)"], ["A", "x"]])] =
      some recs :=
  c2_history_no_raise
    [("G", [["t", ""], ["Name", "Workout 1 (Actual)"], ["A", "x"]])]
    (by decide) (by decide)

/-- Each record emitted for one row comes from one of the scanned columns:
its day is that column's header and its ordinal is the running counter plus
that header's digit. -/
theorem processRowCols_origin (t : String) (counter : Nat) (name : String)
    (row : List String) :
    ∀ (cols : List (Nat × String)) (recs : List HistRecord),
      processRowCols t counter name row cols = some recs →
      ∀ rec ∈ recs, rec.sheet = t ∧ ∃ pr ∈ cols, pr.2 = rec.day ∧
        ∃ d, digitOfHeader pr.2 = some d ∧ rec.workoutOrder = counter + d := by
  intro cols
  induction cols with
  | nil =>
    intro recs h rec hrec
    injection h with h; subst h; cases hrec
  | cons pr cs ih =>
    intro recs h rec hrec
    obtain ⟨ci, dt⟩ := pr
    unfold processRowCols at h
    cases hact : row.get? ci with
    | none =>
      simp only [hact] at h
      exact absurd h (by simp)
    | some actual =>
      simp only [hact] at h
      by_cases hne : actual.isEmpty
      · rw [if_pos hne] at h
        obtain ⟨hsheet, pr', hpr', hrest⟩ := ih recs h rec hrec
        exact ⟨hsheet, pr', List.mem_cons_of_mem _ hpr', hrest⟩
      · rw [if_neg hne] at h
        cases hd : digitOfHeader dt with
        | none =>
          simp only [hd] at h
          exact absurd h (by simp)
        | some d =>
          simp only [hd] at h
          cases hrecs2 : processRowCols t counter name row cs with
          | none =>
            simp only [hrecs2] at h
            exact absurd h (by simp)
          | some recs' =>
            simp only [hrecs2] at h
            injection h with h; subst h
            rcases List.mem_cons.mp hrec with rfl | hrec'
            · exact ⟨rfl, (ci, dt), List.mem_cons_self _ _, rfl, d, hd, rfl⟩
            · obtain ⟨hsheet, pr', hpr', hrest⟩ := ih recs' hrecs2 rec hrec'
              exact ⟨hsheet, pr', List.mem_cons_of_mem _ hpr', hrest⟩

/-- Row-loop version of `processRowCols_origin`. -/
theorem processRows_origin (t : String) (counter : Nat)
    (cols : List (Nat × String)) :
    ∀ (rows : Grid) (recs : List HistRecord),
      processRows t counter cols rows = some recs →
      ∀ rec ∈ recs, rec.sheet = t ∧ ∃ pr ∈ cols, pr.2 = rec.day ∧
        ∃ d, digitOfHeader pr.2 = some d ∧ rec.workoutOrder = counter + d := by
  intro rows
  induction rows with
  | nil =>
    intro recs h rec hrec
    injection h with h; subst h; cases hrec
  | cons row rest ih =>
    intro recs h rec hrec
    unfold processRows at h
    cases hname : row.get? 0 with
    | none =>
      simp only [hname] at h
      exact absurd h (by simp)
    | some name =>
      simp only [hname] at h
      by_cases hne : name.isEmpty
      · rw [if_pos hne] at h
        exact ih recs h rec hrec
      · rw [if_neg hne] at h
        cases ha : processRowCols t counter name row cols with
        | none =>
          simp only [ha] at h
          exact absurd h (by simp)
        | some a =>
          cases hb : processRows t counter cols rest with
          | none =>
            simp only [ha, hb] at h
            exact absurd h (by simp)
          | some b =>
            simp only [ha, hb] at h
            injection h with h; subst h
            rcases List.mem_append.mp hrec with hrec' | hrec'
            · exact processRowCols_origin t counter name row cols a ha rec hrec'
            · exact ih b hb rec hrec'

theorem counterBefore_zero (sheets : Sheets) : counterBefore sheets 0 = 0 := by
  simp [counterBefore]

theorem counterBefore_cons (p : String × Grid) (rest : Sheets) (s : Nat) :
    counterBefore (p :: rest) (s + 1) =
      (colsOfData p.2).length + counterBefore rest s := by
  simp [counterBefore, List.take_succ_cons]

/-- Each extracted record comes from one of the sheets: its sheet field is
that sheet's title, its day one of that sheet's workout-actual headers, and
its ordinal is the initial counter plus the cumulative column count of the
prior sheets plus the header's digit. -/
theorem extractHistory_origin :
    ∀ (sheets : Sheets) (counter : Nat) (recs : List HistRecord),
      extractHistory sheets counter = some recs →
      ∀ rec ∈ recs, ∃ (s : Nat) (hs : s < sheets.length),
        rec.sheet = (sheets.get ⟨s, hs⟩).1 ∧
        ∃ pr ∈ colsOfData (sheets.get ⟨s, hs⟩).2, pr.2 = rec.day ∧
          ∃ d, digitOfHeader pr.2 = some d ∧
            rec.workoutOrder = counter + counterBefore sheets s + d := by
  intro sheets
  induction sheets with
  | nil =>
    intro counter recs h rec hrec
    injection h with h; subst h; cases hrec
  | cons p rest ih =>
    intro counter recs h rec hrec
    obtain ⟨title, data⟩ := p
    simp only [extractHistory] at h
    by_cases h3 : data.length < 3
    · rw [if_pos h3] at h
      obtain ⟨s, hs, hsheet, pr, hpr, hday, d, hd, hord⟩ :=
        ih counter recs h rec hrec
      refine ⟨s + 1, by simpa using Nat.succ_lt_succ hs, hsheet, pr, hpr, hday,
        d, hd, ?_⟩
      rw [counterBefore_cons]
      have hcd : colsOfData (title, data).2 = [] := by
        rw [colsOfData, if_pos h3]
      rw [hcd]
      simpa using hord
    · rw [if_neg h3] at h
      by_cases hce : (workoutColsOf (data.getD 1 [])).isEmpty
      · rw [if_pos hce] at h
        obtain ⟨s, hs, hsheet, pr, hpr, hday, d, hd, hord⟩ :=
          ih counter recs h rec hrec
        refine ⟨s + 1, by simpa using Nat.succ_lt_succ hs, hsheet, pr, hpr, hday,
          d, hd, ?_⟩
        rw [counterBefore_cons]
        have hcd : colsOfData (title, data).2 = [] := by
          rw [colsOfData, if_neg h3]
          exact List.isEmpty_iff.mp hce
        rw [hcd]
        simpa using hord
      · rw [if_neg hce] at h
        cases ha : processRows title counter (workoutColsOf (data.getD 1 []))
            (data.drop 2) with
        | none =>
          simp only [ha] at h
          exact absurd h (by simp)
        | some a =>
          cases hb : extractHistory rest
              (counter + (workoutColsOf (data.getD 1 [])).length) with
          | none =>
            simp only [ha, hb] at h
            exact absurd h (by simp)
          | some b =>
            simp only [ha, hb] at h
            injection h with h; subst h
            have hcd : colsOfData (title, data).2 =
                workoutColsOf (data.getD 1 []) := by
              rw [colsOfData, if_neg h3]
            rcases List.mem_append.mp hrec with hrec' | hrec'
            · obtain ⟨hsheet, pr, hpr, hday, d, hd, hord⟩ :=
                processRows_origin title counter (workoutColsOf (data.getD 1 []))
                  (data.drop 2) a ha rec hrec'
              refine ⟨0, by simp, hsheet, pr, ?_, hday, d, hd, ?_⟩
              · rw [show ((title, data) :: rest).get ⟨0, by simp⟩ = (title, data)
                  from rfl, hcd]
                exact hpr
              · rw [counterBefore_zero]
                simpa using hord
            · obtain ⟨s, hs, hsheet, pr, hpr, hday, d, hd, hord⟩ :=
                ih (counter + (workoutColsOf (data.getD 1 [])).length) b hb
                  rec hrec'
              refine ⟨s + 1, by simpa using Nat.succ_lt_succ hs, hsheet, pr, hpr,
                hday, d, hd, ?_⟩
              rw [counterBefore_cons, hcd]
              omega

theorem counterBefore_succ (sheets : Sheets) (s : Nat) (hs : s < sheets.length) :
    counterBefore sheets (s + 1) =
      counterBefore sheets s + (colsOfData (sheets.get ⟨s, hs⟩).2).length := by
  unfold counterBefore
  rw [List.take_succ, List.map_append, List.sum_append]
  rw [List.getElem?_eq_getElem hs]
  simp [List.get_eq_getElem]

theorem counterBefore_mono (sheets : Sheets) :
    ∀ s1 s2 : Nat, s1 ≤ s2 → counterBefore sheets s1 ≤ counterBefore sheets s2 := by
  have hstep : ∀ k, counterBefore sheets k ≤ counterBefore sheets (k + 1) := by
    intro k
    unfold counterBefore
    rw [List.take_succ, List.map_append, List.sum_append]
    exact Nat.le_add_right _ _
  intro s1 s2 h
  induction s2 with
  | zero =>
    have : s1 = 0 := by omega
    subst this; exact Nat.le_refl _
  | succ k ihk =>
    rcases Nat.lt_or_ge s1 (k + 1) with hlt | hge
    · exact Nat.le_trans (ihk (by omega)) (hstep k)
    · have : s1 = k + 1 := by omega
      subst this; exact Nat.le_refl _

/-- Extracts the intended header numbering from the `wellNumbered` check. -/
theorem wellNumbered_digit (sheets : Sheets) (hwn : wellNumbered sheets = true)
    (s : Nat) (hs : s < sheets.length) (j : Nat)
    (hj : j < (colsOfData (sheets.get ⟨s, hs⟩).2).length) :
    digitOfHeader ((colsOfData (sheets.get ⟨s, hs⟩).2).get ⟨j, hj⟩).2 =
      some (j + 1) := by
  rw [wellNumbered, List.all_eq_true] at hwn
  have hmem : sheets.get ⟨s, hs⟩ ∈ sheets := List.get_mem sheets s hs
  have hall := hwn _ hmem
  rw [List.all_eq_true] at hall
  have hje : (j, (colsOfData (sheets.get ⟨s, hs⟩).2).get ⟨j, hj⟩) ∈
      (colsOfData (sheets.get ⟨s, hs⟩).2).enum := by
    apply List.mem_enum_iff_getElem?.mpr
    simp [List.getElem?_eq_getElem hj]
  have := hall _ hje
  exact beq_iff_eq.mp this

theorem titles_get_inj (sheets : Sheets) (hnd : (sheets.map Prod.fst).Nodup)
    (i j : Nat) (hi : i < sheets.length) (hj : j < sheets.length)
    (he : (sheets.get ⟨i, hi⟩).1 = (sheets.get ⟨j, hj⟩).1) : i = j := by
  apply List.get?_inj (by simpa using hi) hnd
  rw [List.get?_map, List.get?_map, List.get?_eq_get hi, List.get?_eq_get hj]
  simpa [List.get_eq_getElem] using he

/-- C6, amended: assuming the intended header numbering — in every sheet the
workout-actual columns carry the digits 1, 2, …, k at offset 8 in header order
— and distinct sheet titles (dictionary keys), the extracted ordinals order
records exactly as the claim states: within one sheet, a record from an
earlier header column has a strictly smaller ordinal than one from a later
column, and every record of a later sheet has an ordinal at least as large as
every record of an earlier sheet.  (The counterexample shows the claim fails
without the numbering assumption.) -/
theorem c6_ordinal_monotone_amended (sheets : Sheets) (recs : List HistRecord)
    (hload : load_and_process_history sheets = some recs)
    (hwn : wellNumbered sheets = true)
    (hnd : (sheets.map Prod.fst).Nodup)
    (r1 r2 : HistRecord) (h1 : r1 ∈ recs) (h2 : r2 ∈ recs)
    (s1 s2 j1 j2 : Nat) (hs1 : s1 < sheets.length) (hs2 : s2 < sheets.length)
    (ht1 : r1.sheet = (sheets.get ⟨s1, hs1⟩).1)
    (ht2 : r2.sheet = (sheets.get ⟨s2, hs2⟩).1)
    (hj1 : j1 < (colsOfData (sheets.get ⟨s1, hs1⟩).2).length)
    (hj2 : j2 < (colsOfData (sheets.get ⟨s2, hs2⟩).2).length)
    (hd1 : ((colsOfData (sheets.get ⟨s1, hs1⟩).2).get ⟨j1, hj1⟩).2 = r1.day)
    (hd2 : ((colsOfData (sheets.get ⟨s2, hs2⟩).2).get ⟨j2, hj2⟩).2 = r2.day) :
    (s1 = s2 → j1 < j2 → r1.workoutOrder < r2.workoutOrder) ∧
    (s1 < s2 → r1.workoutOrder ≤ r2.workoutOrder) := by
  have key : ∀ (r : HistRecord), r ∈ recs →
      ∀ (s : Nat) (hs : s < sheets.length) (j : Nat)
        (hj : j < (colsOfData (sheets.get ⟨s, hs⟩).2).length),
        r.sheet = (sheets.get ⟨s, hs⟩).1 →
        ((colsOfData (sheets.get ⟨s, hs⟩).2).get ⟨j, hj⟩).2 = r.day →
        r.workoutOrder = counterBefore sheets s + (j + 1) := by
    intro r hr s hs j hj hts hdj
    obtain ⟨s', hs', hsheet, pr, hpr, hday, d, hd, hord⟩ :=
      extractHistory_origin sheets 0 recs hload r hr
    have hseq : s' = s :=
      titles_get_inj sheets hnd s' s hs' hs (by rw [← hsheet, hts])
    subst hseq
    have hdr : digitOfHeader r.day = some d := by rw [← hday]; exact hd
    have hdr2 : digitOfHeader r.day = some (j + 1) := by
      rw [← hdj]
      exact wellNumbered_digit sheets hwn s' hs' j hj
    rw [hdr] at hdr2
    injection hdr2 with hdd
    rw [hord, hdd]
    omega
  have ho1 : r1.workoutOrder = counterBefore sheets s1 + (j1 + 1) :=
    key r1 h1 s1 hs1 j1 hj1 ht1 hd1
  have ho2 : r2.workoutOrder = counterBefore sheets s2 + (j2 + 1) :=
    key r2 h2 s2 hs2 j2 hj2 ht2 hd2
  constructor
  · intro hse hjlt
    subst hse
    rw [ho1, ho2]
    omega
  · intro hslt
    have hsucc := counterBefore_succ sheets s1 hs1
    have hmono := counterBefore_mono sheets (s1 + 1) s2 (by omega)
    rw [ho1, ho2]
    omega

/-- C6 witness: two well-numbered sheets; the record of the later sheet has
ordinal 2 ≥ 1, the ordinal of the earlier sheet's record. -/
theorem c6_ordinal_monotone_amended_witness :
    (⟨"A", "Workout 1 (Actual)", "E", "x", 1⟩ : HistRecord).workoutOrder ≤
      (⟨"B", "Workout 1 (Actual)", "F", "y", 2⟩ : HistRecord).workoutOrder :=
  (c6_ordinal_monotone_amended
    [("A", [["", ""], ["N", "Workout 1 (Actual)"], ["E", "x"]]),
     ("B", [["", ""], ["N", "Workout 1 (Actual)"], ["F", "y"]])]
    [⟨"A", "Workout 1 (Actual)", "E", "x", 1⟩,
     ⟨"B", "Workout 1 (Actual)", "F", "y", 2⟩]
    (by decide) (by decide) (by decide)
    ⟨"A", "Workout 1 (Actual)", "E", "x", 1⟩
    ⟨"B", "Workout 1 (Actual)", "F", "y", 2⟩
    (by decide) (by decide)
    0 1 0 0 (by decide) (by decide)
    (by decide) (by decide) (by decide) (by decide) (by decide) (by decide)).2
    (by decide)

end WorkoutApp
